import Mathlib

/-!
Verification development for the word-exploration widget in `src/ps5.js`.

The core algorithmic unit is `groupBy(objects, property)` (lines 14-38 of
`src/ps5.js`): it buckets records in a JavaScript `Map` keyed by the raw
selected value, sorts the keys with the default `Array.prototype.sort`
(which compares stringified keys, moving `undefined` to the end), and then
copies the buckets into a plain object in sorted-key order.

The embedding below models the JavaScript values the program manipulates
(`JSVal`), records as field lists, the `Map` stage (`insertRec`,
`groupMap`), the default sort comparator (`jsLeB`), and the plain-object
result together with its observable key-enumeration order (`objSet`,
`objKeys`): in JavaScript, own string keys that are canonical array
indices are enumerated first in ascending numeric order, and the remaining
keys follow in insertion order.
-/

namespace PS5

/-- JavaScript primitive values that occur as record fields and group keys.
Numbers are modelled as integers: the program only ever groups by integer
fields such as `numSyllables`. -/
inductive JSVal where
  | undefined : JSVal
  | bool : Bool → JSVal
  | num : Int → JSVal
  | str : String → JSVal
deriving DecidableEq, Repr

/-- A record is a JavaScript object: a finite list of named fields with
distinct names, in insertion order. -/
abbrev Record := List (String × JSVal)

/-- JavaScript ToString on the values of `JSVal`. -/
def jsToString : JSVal → String
  | .undefined => "undefined"
  | .bool b => if b then "true" else "false"
  | .num n => toString n
  | .str s => s

/-- The `property` argument of `groupBy`: either a field name or a
key-selector function (`src/ps5.js` lines 14-20). -/
inductive Selector where
  | field : String → Selector
  | fn : (Record → JSVal) → Selector

/-- Key selection per record: `obj[propName]` for a field name (yielding
`undefined` when the field is absent), or function application. -/
def applySel : Selector → Record → JSVal
  | .field p, r => (List.lookup p r).getD .undefined
  | .fn f, r => f r

/-- One iteration of the bucketing loop (`src/ps5.js` lines 23-30): append
the record to the bucket of its key, creating the bucket at the end of the
`Map` on first encounter (JavaScript `Map`s preserve insertion order). -/
def insertRec (m : List (JSVal × List Record)) (k : JSVal) (r : Record) :
    List (JSVal × List Record) :=
  match m with
  | [] => [(k, [r])]
  | (k₀, b) :: m₀ =>
      if k₀ = k then (k₀, b ++ [r]) :: m₀ else (k₀, b) :: insertRec m₀ k r

/-- The `Map` built by the loop of `src/ps5.js` lines 22-30. -/
def groupMap (objects : List Record) (property : Selector) :
    List (JSVal × List Record) :=
  objects.foldl (fun m r => insertRec m (applySel property r) r) []

/-- Lookup `Map.prototype.get` (returning the empty bucket for an absent key; the
program only calls it on present keys). -/
def mapGet (m : List (JSVal × List Record)) (k : JSVal) : List Record :=
  match m with
  | [] => []
  | (k₀, b) :: m₀ => if k₀ = k then b else mapGet m₀ k

/-- Lexicographic code-unit comparison of character sequences: the string
comparison JavaScript `<`/`>` perform. -/
def charListLe : List Char → List Char → Bool
  | [], _ => true
  | _ :: _, [] => false
  | a :: as, b :: bs => if a = b then charListLe as bs else decide (a < b)

/-- Lexicographic code-unit comparison of strings. -/
def strLe (a b : String) : Bool := charListLe a.toList b.toList

/-- The default `Array.prototype.sort` comparison used on the key array
(`src/ps5.js` line 34): `undefined` sorts after everything, and other
values are compared by their stringified forms. -/
def jsLeB (a b : JSVal) : Bool :=
  if a = .undefined then b == .undefined
  else if b = .undefined then true
  else strLe (jsToString a) (jsToString b)

/-- The sort order as a decidable relation. -/
def jsLe (a b : JSVal) : Prop := jsLeB a b = true

instance : DecidableRel jsLe := fun a b => instDecidableEqBool (jsLeB a b) true

/-- Assignment `result[key] = value` on a plain object: overwrite in place
when the key exists, append otherwise. -/
def objSet {β : Type} (o : List (String × β)) (s : String) (v : β) :
    List (String × β) :=
  match o with
  | [] => [(s, v)]
  | (s₀, v₀) :: o₀ =>
      if s₀ = s then (s₀, v) :: o₀ else (s₀, v₀) :: objSet o₀ s v

/-- The function `groupBy` (`src/ps5.js` lines 14-38): bucket the records in a `Map`,
sort the keys with the default comparison, and copy the buckets into a
plain object under the stringified keys in sorted order. -/
def groupBy (objects : List Record) (property : Selector) :
    List (String × List Record) :=
  (List.insertionSort jsLe ((groupMap objects property).map Prod.fst)).foldl
    (fun result k =>
      objSet result (jsToString k) (mapGet (groupMap objects property) k)) []

/-- Whether a character is a decimal digit. -/
def isDigitCh (c : Char) : Bool := decide (48 ≤ c.toNat) && decide (c.toNat ≤ 57)

/-- The numeric value of a digit sequence. -/
def digitsVal (cs : List Char) : Nat :=
  cs.foldl (fun acc c => acc * 10 + (c.toNat - 48)) 0

/-- Whether a property name is a canonical array index (an integer `n` with
`0 ≤ n < 2^32 - 1` in canonical decimal form, so no leading zero): such
keys are enumerated numerically first by `Object.keys` and `for..in`. -/
def isIdx (s : String) : Bool :=
  let cs := s.toList
  !cs.isEmpty && cs.all isDigitCh && (cs.head? != some '0' || cs == ['0']) &&
    decide (digitsVal cs < 4294967295)

/-- Numeric comparison of array-index property names. -/
def idxLe (a b : String) : Prop := digitsVal a.toList ≤ digitsVal b.toList

instance : DecidableRel idxLe := fun a b =>
  Nat.decLe (digitsVal a.toList) (digitsVal b.toList)

/-- The observable key order of a plain object (`Object.keys`, `for..in`):
canonical array indices in ascending numeric order, then the remaining
string keys in insertion order. -/
def objKeys {β : Type} (o : List (String × β)) : List String :=
  List.insertionSort idxLe ((o.map Prod.fst).filter (fun s => isIdx s))
    ++ (o.map Prod.fst).filter (fun s => !isIdx s)

/-- Property read `o[s]` on the result object. -/
def objGet (o : List (String × List Record)) (s : String) : List Record :=
  match o with
  | [] => []
  | (s₀, v) :: o₀ => if s₀ = s then v else objGet o₀ s

/-- All records of the result, groups concatenated. -/
def flattenGroups (o : List (String × List Record)) : List Record :=
  (o.map Prod.snd).flatten

/-! ### Properties of the sort comparison -/

theorem charListLe_total : ∀ as bs : List Char,
    charListLe as bs = true ∨ charListLe bs as = true := by
  intro as
  induction as with
  | nil => intro bs; exact Or.inl rfl
  | cons a as ih =>
      intro bs
      cases bs with
      | nil => exact Or.inr rfl
      | cons b bs =>
          by_cases hab : a = b
          · subst hab
            simp only [charListLe, if_pos rfl]
            exact ih bs
          · have hba : b ≠ a := fun h => hab h.symm
            simp only [charListLe, if_neg hab, if_neg hba]
            rcases lt_trichotomy a b with h | h | h
            · exact Or.inl (decide_eq_true h)
            · exact absurd h hab
            · exact Or.inr (decide_eq_true h)

theorem charListLe_trans : ∀ as bs cs : List Char,
    charListLe as bs = true → charListLe bs cs = true →
    charListLe as cs = true := by
  intro as
  induction as with
  | nil => intro bs cs _ _; rfl
  | cons a as ih =>
      intro bs cs h₁ h₂
      cases bs with
      | nil => simp [charListLe] at h₁
      | cons b bs =>
          cases cs with
          | nil => simp [charListLe] at h₂
          | cons c cs =>
              by_cases hab : a = b <;> by_cases hbc : b = c
              · subst hab; subst hbc
                simp only [charListLe, if_pos rfl] at h₁ h₂ ⊢
                exact ih bs cs h₁ h₂
              · subst hab
                simp only [charListLe, if_pos rfl, if_neg hbc] at h₂ ⊢
                exact h₂
              · subst hbc
                simp only [charListLe, if_pos rfl, if_neg hab] at h₁ ⊢
                exact h₁
              · simp only [charListLe, if_neg hab, if_neg hbc] at h₁ h₂
                have hac : a < c := lt_trans (of_decide_eq_true h₁) (of_decide_eq_true h₂)
                simp only [charListLe, if_neg (ne_of_lt hac)]
                exact decide_eq_true hac

theorem strLe_total (a b : String) : strLe a b = true ∨ strLe b a = true :=
  charListLe_total a.toList b.toList

theorem strLe_trans {a b c : String} (h₁ : strLe a b = true)
    (h₂ : strLe b c = true) : strLe a c = true :=
  charListLe_trans a.toList b.toList c.toList h₁ h₂

instance : IsTotal JSVal jsLe := by
  constructor
  intro a b
  unfold jsLe jsLeB
  by_cases ha : a = .undefined <;> by_cases hb : b = .undefined <;> simp [ha, hb]
  exact strLe_total _ _

instance : IsTrans JSVal jsLe := by
  constructor
  intro a b c hab hbc
  unfold jsLe jsLeB at *
  by_cases ha : a = .undefined <;> by_cases hb : b = .undefined <;> by_cases hc : c = .undefined <;>
    simp_all
  exact strLe_trans hab hbc

instance : IsTotal String idxLe := ⟨fun _ _ => Nat.le_total _ _⟩

instance : IsTrans String idxLe := ⟨fun _ _ _ => Nat.le_trans⟩

theorem jsLe_undef_right (b : JSVal) (h : jsLe .undefined b) : b = .undefined := by
  unfold jsLe jsLeB at h
  simpa using h

theorem jsLe_toString {a b : JSVal} (ha : a ≠ .undefined) (hb : b ≠ .undefined)
    (h : jsLe a b) : strLe (jsToString a) (jsToString b) = true := by
  unfold jsLe jsLeB at h
  rw [if_neg ha, if_neg hb] at h
  exact h

/-! ### The `Map` stage -/

theorem flatten_insertRec (m : List (JSVal × List Record)) (k : JSVal) (r : Record) :
    ((insertRec m k r).map Prod.snd).flatten.Perm (r :: (m.map Prod.snd).flatten) := by
  induction m with
  | nil => simp [insertRec]
  | cons p m ih =>
      obtain ⟨k₀, b⟩ := p
      by_cases hk : k₀ = k
      · simp only [insertRec, if_pos hk, List.map_cons, List.flatten_cons]
        rw [List.append_assoc]
        exact List.perm_middle
      · simp only [insertRec, if_neg hk, List.map_cons, List.flatten_cons]
        exact ((ih.append_left b).trans List.perm_middle)

theorem flatten_foldl_insertRec (property : Selector) (objects : List Record) :
    ∀ m : List (JSVal × List Record),
      (((objects.foldl (fun m r => insertRec m (applySel property r) r) m).map
          Prod.snd).flatten).Perm ((m.map Prod.snd).flatten ++ objects) := by
  induction objects with
  | nil => intro m; simp
  | cons r rs ih =>
      intro m
      simp only [List.foldl_cons]
      refine (ih (insertRec m (applySel property r) r)).trans ?_
      refine (((flatten_insertRec m (applySel property r) r).append_right rs).trans ?_)
      exact List.perm_middle.symm

theorem flatten_groupMap (objects : List Record) (property : Selector) :
    ((groupMap objects property).map Prod.snd).flatten.Perm objects := by
  simpa [groupMap] using flatten_foldl_insertRec property objects []

theorem mapFst_insertRec (m : List (JSVal × List Record)) (k : JSVal) (r : Record) :
    (insertRec m k r).map Prod.fst =
      if k ∈ m.map Prod.fst then m.map Prod.fst else m.map Prod.fst ++ [k] := by
  induction m with
  | nil => simp [insertRec]
  | cons p m ih =>
      obtain ⟨k₀, b⟩ := p
      by_cases hk : k₀ = k
      · simp [insertRec, hk]
      · have hne : ¬ k = k₀ := fun h => hk h.symm
        simp only [insertRec, if_neg hk, List.map_cons, List.mem_cons, hne, false_or, ih]
        by_cases hm : k ∈ m.map Prod.fst <;> simp [hm]

theorem nodup_mapFst_insertRec {m : List (JSVal × List Record)} (k : JSVal) (r : Record)
    (h : (m.map Prod.fst).Nodup) : ((insertRec m k r).map Prod.fst).Nodup := by
  rw [mapFst_insertRec]
  by_cases hm : k ∈ m.map Prod.fst
  · simpa [hm]
  · rw [if_neg hm, List.nodup_append]
    exact ⟨h, List.nodup_singleton k, fun a ha hak => hm (by simpa [List.mem_singleton.mp hak] using ha)⟩

theorem nodup_mapFst_groupMap (objects : List Record) (property : Selector) :
    ((groupMap objects property).map Prod.fst).Nodup := by
  unfold groupMap
  suffices h : ∀ m : List (JSVal × List Record), (m.map Prod.fst).Nodup →
      ((objects.foldl (fun m r => insertRec m (applySel property r) r) m).map Prod.fst).Nodup by
    exact h [] (by simp)
  induction objects with
  | nil => intro m hm; simpa using hm
  | cons r rs ih =>
      intro m hm
      simpa using ih _ (nodup_mapFst_insertRec _ _ hm)

theorem mapGet_entry {m : List (JSVal × List Record)} (h : (m.map Prod.fst).Nodup) :
    ∀ p ∈ m, mapGet m p.1 = p.2 := by
  induction m with
  | nil => intro p hp; cases hp
  | cons q m ih =>
      obtain ⟨k₀, b⟩ := q
      intro p hp
      rcases List.mem_cons.mp hp with hp | hp
      · subst hp; simp [mapGet]
      · have hne : k₀ ≠ p.1 := by
          intro hk
          have : p.1 ∈ m.map Prod.fst := List.mem_map_of_mem Prod.fst hp
          rw [← hk] at this
          exact (List.nodup_cons.mp h).1 this
        simp only [mapGet, if_neg hne]
        exact ih (List.nodup_cons.mp h).2 p hp

theorem map_mapGet_mapFst {m : List (JSVal × List Record)} (h : (m.map Prod.fst).Nodup) :
    (m.map Prod.fst).map (fun k => mapGet m k) = m.map Prod.snd := by
  rw [List.map_map]
  exact List.map_congr_left (fun p hp => mapGet_entry h p hp)

theorem mapGet_insertRec (m : List (JSVal × List Record)) (k₀ k : JSVal) (r : Record) :
    mapGet (insertRec m k₀ r) k = mapGet m k ++ (if k₀ = k then [r] else []) := by
  induction m with
  | nil =>
      by_cases hk : k₀ = k <;> simp [insertRec, mapGet, hk]
  | cons p m ih =>
      obtain ⟨k₁, b⟩ := p
      by_cases h₁ : k₁ = k₀
      · subst h₁
        by_cases h₂ : k₁ = k <;> simp [insertRec, mapGet, h₂]
      · by_cases h₂ : k₁ = k
        · subst h₂
          have h₃ : ¬ k₀ = k₁ := fun h => h₁ h.symm
          simp [insertRec, h₁, mapGet, h₃]
        · simp [insertRec, h₁, mapGet, h₂, ih]

theorem mapGet_foldl_insertRec (property : Selector) (objects : List Record)
    (k : JSVal) :
    ∀ m : List (JSVal × List Record),
      mapGet (objects.foldl (fun m r => insertRec m (applySel property r) r) m) k =
        mapGet m k ++ objects.filter (fun r => decide (applySel property r = k)) := by
  induction objects with
  | nil => intro m; simp
  | cons r rs ih =>
      intro m
      simp only [List.foldl_cons]
      rw [ih, mapGet_insertRec]
      by_cases hk : applySel property r = k
      · simp [hk, List.filter_cons]
      · simp [hk, List.filter_cons]

theorem mapGet_groupMap (objects : List Record) (property : Selector) (k : JSVal) :
    mapGet (groupMap objects property) k =
      objects.filter (fun r => decide (applySel property r = k)) := by
  simpa [groupMap] using mapGet_foldl_insertRec property objects k []

theorem mem_mapFst_insertRec_self (m : List (JSVal × List Record)) (k : JSVal)
    (r : Record) : k ∈ (insertRec m k r).map Prod.fst := by
  rw [mapFst_insertRec]
  by_cases hm : k ∈ m.map Prod.fst <;> simp [hm]

theorem mem_mapFst_insertRec_mono {m : List (JSVal × List Record)} {k₁ : JSVal}
    (k : JSVal) (r : Record) (h : k₁ ∈ m.map Prod.fst) :
    k₁ ∈ (insertRec m k r).map Prod.fst := by
  rw [mapFst_insertRec]
  by_cases hm : k ∈ m.map Prod.fst <;> simp [hm, h]

theorem mem_mapFst_foldl_insertRec (property : Selector) (objects : List Record) :
    ∀ m : List (JSVal × List Record), ∀ k₁ ∈ m.map Prod.fst,
      k₁ ∈ ((objects.foldl (fun m r => insertRec m (applySel property r) r) m).map
        Prod.fst) := by
  induction objects with
  | nil => intro m k₁ h; simpa using h
  | cons r rs ih =>
      intro m k₁ h
      simpa using ih _ k₁ (mem_mapFst_insertRec_mono _ _ h)

theorem key_mem_mapFst_foldl (property : Selector) (objects : List Record) :
    ∀ m : List (JSVal × List Record), ∀ r ∈ objects,
      applySel property r ∈
        ((objects.foldl (fun m r => insertRec m (applySel property r) r) m).map
          Prod.fst) := by
  induction objects with
  | nil => intro m r hr; cases hr
  | cons x xs ih =>
      intro m r hr
      rcases List.mem_cons.mp hr with h | h
      · subst h
        simp only [List.foldl_cons]
        exact mem_mapFst_foldl_insertRec property xs _ _
          (mem_mapFst_insertRec_self m _ r)
      · simpa using ih _ r h

theorem key_mem_mapFst_groupMap (objects : List Record) (property : Selector)
    {r : Record} (hr : r ∈ objects) :
    applySel property r ∈ (groupMap objects property).map Prod.fst :=
  key_mem_mapFst_foldl property objects [] r hr

/-! ### The result-object stage -/

theorem mem_objSet {o : List (String × List Record)} {s : String}
    {v : List Record} {p : String × List Record} (h : p ∈ objSet o s v) :
    p ∈ o ∨ p = (s, v) := by
  induction o with
  | nil => simpa [objSet] using h
  | cons q o ih =>
      obtain ⟨s₀, v₀⟩ := q
      by_cases hs : s₀ = s
      · subst hs
        simp only [objSet, if_pos rfl] at h
        rcases List.mem_cons.mp h with h | h
        · exact Or.inr h
        · exact Or.inl (List.mem_cons_of_mem _ h)
      · simp only [objSet, if_neg hs] at h
        rcases List.mem_cons.mp h with h | h
        · exact Or.inl (h ▸ List.mem_cons_self _ _)
        · rcases ih h with h | h
          · exact Or.inl (List.mem_cons_of_mem _ h)
          · exact Or.inr h

theorem self_mem_objSet (o : List (String × List Record)) (s : String)
    (v : List Record) : (s, v) ∈ objSet o s v := by
  induction o with
  | nil => simp [objSet]
  | cons q o ih =>
      obtain ⟨s₀, v₀⟩ := q
      by_cases hs : s₀ = s
      · subst hs; simp [objSet]
      · simp only [objSet, if_neg hs]
        exact List.mem_cons_of_mem _ ih

theorem mapFst_objSet (o : List (String × List Record)) (s : String)
    (v : List Record) :
    (objSet o s v).map Prod.fst =
      if s ∈ o.map Prod.fst then o.map Prod.fst else o.map Prod.fst ++ [s] := by
  induction o with
  | nil => simp [objSet]
  | cons q o ih =>
      obtain ⟨s₀, v₀⟩ := q
      by_cases hs : s₀ = s
      · simp [objSet, hs]
      · have hne : ¬ s = s₀ := fun h => hs h.symm
        simp only [objSet, if_neg hs, List.map_cons, List.mem_cons, hne, false_or, ih]
        by_cases hm : s ∈ o.map Prod.fst <;> simp [hm]

theorem objSet_of_not_mem {o : List (String × List Record)} {s : String}
    (v : List Record) (h : s ∉ o.map Prod.fst) : objSet o s v = o ++ [(s, v)] := by
  induction o with
  | nil => simp [objSet]
  | cons q o ih =>
      obtain ⟨s₀, v₀⟩ := q
      have hs : ¬ s₀ = s := by
        intro hs
        exact h (by simp [hs])
      simp only [objSet, if_neg hs, List.cons_append, List.cons.injEq, true_and]
      exact ih (fun hm => h (List.mem_cons_of_mem _ hm))

theorem foldl_objSet_eq (m : List (JSVal × List Record)) :
    ∀ (ks : List JSVal) (o : List (String × List Record)),
      (ks.map jsToString).Nodup → (∀ k ∈ ks, jsToString k ∉ o.map Prod.fst) →
      ks.foldl (fun result k => objSet result (jsToString k) (mapGet m k)) o =
        o ++ ks.map (fun k => (jsToString k, mapGet m k)) := by
  intro ks
  induction ks with
  | nil => intro o _ _; simp
  | cons k ks ih =>
      intro o hnd hfresh
      simp only [List.foldl_cons]
      rw [objSet_of_not_mem _ (hfresh k (List.mem_cons_self k ks))]
      rw [ih _ (List.nodup_cons.mp (by simpa using hnd)).2 ?_]
      · simp
      · intro k₁ hk₁
        have hk₁o := hfresh k₁ (List.mem_cons_of_mem _ hk₁)
        simp only [List.map_append, List.mem_append, List.map_cons, List.map_nil,
          List.mem_singleton]
        rintro (h | h)
        · exact hk₁o h
        · have hmem : jsToString k ∈ ks.map jsToString :=
            h ▸ List.mem_map_of_mem jsToString hk₁
          exact (List.nodup_cons.mp (by simpa using hnd)).1 hmem

theorem mapFst_foldl_objSet_sublist (m : List (JSVal × List Record)) :
    ∀ (ks : List JSVal) (o : List (String × List Record)),
      ((ks.foldl (fun result k => objSet result (jsToString k) (mapGet m k))
        o).map Prod.fst).Sublist (o.map Prod.fst ++ ks.map jsToString) := by
  intro ks
  induction ks with
  | nil => intro o; simp
  | cons k ks ih =>
      intro o
      simp only [List.foldl_cons]
      refine (ih (objSet o (jsToString k) (mapGet m k))).trans ?_
      rw [mapFst_objSet]
      by_cases hm : jsToString k ∈ o.map Prod.fst
      · rw [if_pos hm]
        exact (List.sublist_cons_self (jsToString k) (ks.map jsToString)).append_left _
      · rw [if_neg hm, List.append_assoc]
        simp

theorem foldl_objSet_values (m : List (JSVal × List Record)) :
    ∀ (ks : List JSVal) (o : List (String × List Record)),
      (∀ p ∈ o, ∃ k, p.2 = mapGet m k) →
      ∀ p ∈ ks.foldl (fun result k => objSet result (jsToString k) (mapGet m k)) o,
        ∃ k, p.2 = mapGet m k := by
  intro ks
  induction ks with
  | nil => intro o h p hp; exact h p hp
  | cons k ks ih =>
      intro o h p hp
      simp only [List.foldl_cons] at hp
      refine ih _ ?_ p hp
      intro q hq
      rcases mem_objSet hq with hq | hq
      · exact h q hq
      · exact ⟨k, by rw [hq]⟩

/-- In a sorted list without duplicates, an element that every related
element equals must come last. -/
theorem sorted_mem_eq_append_last {α : Type} {r : α → α → Prop} {l : List α}
    {a : α} (hs : List.Sorted r l) (hnd : l.Nodup) (ha : a ∈ l)
    (hmax : ∀ b, r a b → b = a) : ∃ l₀, l = l₀ ++ [a] := by
  induction l with
  | nil => cases ha
  | cons x xs ih =>
      by_cases hx : x = a
      · subst hx
        have hxs : xs = [] := by
          rw [List.eq_nil_iff_forall_not_mem]
          intro b hb
          have hb₂ : b = x := hmax b (List.rel_of_sorted_cons hs b hb)
          exact (List.nodup_cons.mp hnd).1 (hb₂ ▸ hb)
        exact ⟨[], by simp [hxs]⟩
      · have ha₂ : a ∈ xs := by
          rcases List.mem_cons.mp ha with h | h
          · exact absurd h.symm hx
          · exact h
        obtain ⟨l₀, hl₀⟩ := ih (List.sorted_cons.mp hs).2 (List.nodup_cons.mp hnd).2 ha₂
        exact ⟨x :: l₀, by rw [hl₀, List.cons_append]⟩

theorem foldl_insertRec_congr (s₁ s₂ : Selector) (objects : List Record) :
    ∀ m : List (JSVal × List Record),
      (∀ r ∈ objects, applySel s₁ r = applySel s₂ r) →
      objects.foldl (fun m r => insertRec m (applySel s₁ r) r) m =
        objects.foldl (fun m r => insertRec m (applySel s₂ r) r) m := by
  induction objects with
  | nil => intro m _; rfl
  | cons r rs ih =>
      intro m hall
      simp only [List.foldl_cons]
      rw [hall r (List.mem_cons_self r rs)]
      exact ih _ (fun x hx => hall x (List.mem_cons_of_mem _ hx))

theorem groupMap_congr (objects : List Record) {s₁ s₂ : Selector}
    (h : ∀ r ∈ objects, applySel s₁ r = applySel s₂ r) :
    groupMap objects s₁ = groupMap objects s₂ :=
  foldl_insertRec_congr s₁ s₂ objects [] h

theorem groupBy_congr (objects : List Record) {s₁ s₂ : Selector}
    (h : ∀ r ∈ objects, applySel s₁ r = applySel s₂ r) :
    groupBy objects s₁ = groupBy objects s₂ := by
  unfold groupBy
  rw [groupMap_congr objects h]

/-! ### Page-controller model

The remaining code of `src/ps5.js` is DOM wiring: `datamuseRequest`
(lines 65-74), `addToSavedWords` (lines 108-115), and the two button
handlers whose callbacks render the fetched records (lines 119-181).
DOM elements are modelled by the properties the program reads and writes;
appending a non-node argument to an element appends its string form as a
text child. -/

/-- The DOM nodes the handlers create and append to the output list:
an `h3` group header, an `li` holding the word and a save button, or a
text node. -/
inductive DomNode where
  | header : String → DomNode
  | item : String → DomNode
  | text : String → DomNode
deriving DecidableEq, Repr

/-- The slice of a DOM element the program observes and mutates. -/
structure Element where
  innerHTML : String := ""
  textContent : String := ""
  value : String := ""
  children : List DomNode := []
deriving DecidableEq, Repr

/-- The page elements cached at the top of `src/ps5.js` (lines 41-46). -/
structure Page where
  outputDescription : Element
  wordOutput : Element
  wordInput : Element
  savedWords : Element
deriving DecidableEq, Repr

/-- The browser-visible state: the page plus the diagnostic console. -/
structure BrowserState where
  page : Page
  console : List String
deriving DecidableEq, Repr

/-- Field read `obj[name]` on a record. -/
def getField (r : Record) (name : String) : JSVal :=
  (List.lookup name r).getD .undefined

/-- The function `datamuseRequest` (`src/ps5.js` lines 65-74): the settled outcome of
`fetch(url).then(response => response.json())` is either parsed data or a
failure. On success the page-updating callback runs; on failure the error
is logged to the console and nothing else happens. -/
def datamuseRequest (response : Except String (List Record))
    (callback : List Record → Page → Page) (st : BrowserState) : BrowserState :=
  match response with
  | .ok data => { st with page := callback data st.page }
  | .error err => { st with console := st.console ++ [err] }

/-- The callback of `rhymeHandler` (`src/ps5.js` lines 121-150): group the
response by `numSyllables`; when the grouped object has no keys, set the
output area value to `"(no results)"`; otherwise, for each group in
enumeration order, append an `h3` header followed by one `li` per record. -/
def rhymeCallback (result : List Record) (page : Page) : Page :=
  let groupedResult := groupBy result (.field "numSyllables")
  if (objKeys groupedResult).length == 0 then
    { page with wordOutput := { page.wordOutput with value := "(no results)" } }
  else
    let nodes := (objKeys groupedResult).map (fun group =>
      let wordGroup := objGet groupedResult group
      DomNode.header
          ("Syllables: " ++ jsToString (getField (wordGroup.headD []) "numSyllables"))
        :: wordGroup.map (fun r => DomNode.item (jsToString (getField r "word"))))
    { page with wordOutput :=
        { page.wordOutput with
            children := page.wordOutput.children ++ nodes.flatten } }

/-- The callback of `synonymHandler` (`src/ps5.js` lines 158-177): when the
response array is empty (`Object.keys(result).length == 0`), set the output
area value to `"(no results)"`; otherwise append one `li` per record. -/
def synonymCallback (result : List Record) (page : Page) : Page :=
  if result.length == 0 then
    { page with wordOutput := { page.wordOutput with value := "(no results)" } }
  else
    { page with wordOutput :=
        { page.wordOutput with
            children := page.wordOutput.children ++
              result.map (fun r => DomNode.item (jsToString (getField r "word"))) } }

/-- The state touched by `addToSavedWords`: the module-level `wordList`
array (`src/ps5.js` line 108) and the `#saved_words` span. -/
structure SavedWordsState where
  wordList : List String
  savedWords : Element
deriving DecidableEq, Repr

/-- The function `addToSavedWords` (`src/ps5.js` lines 110-115): clear the span with
`innerHTML = ""`, push the word onto `wordList` (the result of the stray
`wordList.join()` call is discarded), and append the array to the span,
which stringifies it comma-separated. -/
def addToSavedWords (word : String) (st : SavedWordsState) : SavedWordsState :=
  let cleared : Element := { st.savedWords with innerHTML := "", children := [] }
  let wordList := st.wordList ++ [word]
  { wordList := wordList
    savedWords :=
      { cleared with
          children := cleared.children ++ [.text (String.intercalate "," wordList)] } }

/-! ### Heap model of `groupBy`

To state that `groupBy` does not mutate its input array or the records it
holds, the JavaScript heap is made explicit: objects live at addresses,
the input is the address of an array of record addresses, `push` on a
bucket is a heap write, and `Map.prototype.set` of a fresh `[]` is an
allocation. `groupByH` is `groupBy` (`src/ps5.js` lines 14-38) replayed
against this heap; every heap write it performs targets a bucket array it
allocated itself. -/

/-- A heap address. -/
abbrev Addr := Nat

/-- A heap object: an array of references or a record of primitive fields. -/
inductive HObj where
  | arr : List Addr → HObj
  | record : List (String × JSVal) → HObj
deriving DecidableEq, Repr

/-- The heap: the object at address `a` is the entry at position `a`;
allocation appends at the end. -/
abbrev Heap := List HObj

/-- The fields of the record at an address (empty for non-records). -/
def fieldsAt (h : Heap) (a : Addr) : List (String × JSVal) :=
  match h[a]? with
  | some (.record fs) => fs
  | _ => []

/-- Field read `obj[prop]` through the heap. -/
def readField (h : Heap) (a : Addr) (p : String) : JSVal :=
  (List.lookup p (fieldsAt h a)).getD .undefined

/-- The key selector over heap records. -/
inductive HSelector where
  | field : String → HSelector
  | fn : (List (String × JSVal) → JSVal) → HSelector

/-- Key selection for a record address. -/
def applySelH (h : Heap) (s : HSelector) (a : Addr) : JSVal :=
  match s with
  | .field p => readField h a p
  | .fn f => f (fieldsAt h a)

/-- Push `bucket.push(element)`: a heap write extending the array in place. -/
def pushElem (h : Heap) (b : Addr) (a : Addr) : Heap :=
  match h[b]? with
  | some (.arr es) => h.set b (.arr (es ++ [a]))
  | _ => h

/-- The `for..of` loop of `src/ps5.js` lines 23-30 over the heap: look the
key up in the `Map` (modelled as an association list of key/bucket-address
pairs); on a miss allocate a fresh empty bucket array; then push the record
address onto the bucket. -/
def groupByLoop (sel : HSelector) (elems : List Addr) (h : Heap)
    (m : List (JSVal × Addr)) : Heap × List (JSVal × Addr) :=
  match elems with
  | [] => (h, m)
  | a :: rest =>
      let k := applySelH h sel a
      match List.lookup k m with
      | some b => groupByLoop sel rest (pushElem h b a) m
      | none => groupByLoop sel rest (pushElem (h ++ [.arr []]) h.length a)
          (m ++ [(k, h.length)])

/-- The function `groupBy` over the explicit heap (`src/ps5.js` lines 14-38): read the
input array, run the bucketing loop, and build the result object from the
sorted keys; buckets are returned by reference. -/
def groupByH (h : Heap) (input : Addr) (sel : HSelector) :
    Heap × List (String × Addr) :=
  let elems := match h[input]? with | some (.arr es) => es | _ => []
  let loopOut := groupByLoop sel elems h []
  let sortedKeys := List.insertionSort jsLe (loopOut.2.map Prod.fst)
  (loopOut.1,
    sortedKeys.foldl
      (fun result k => objSet result (jsToString k) ((List.lookup k loopOut.2).getD 0))
      [])

theorem length_pushElem (h : Heap) (b a : Addr) :
    (pushElem h b a).length = h.length := by
  unfold pushElem
  cases hb : h[b]? with
  | none => rfl
  | some o => cases o <;> simp [List.length_set]

theorem pushElem_getElem_ne (h : Heap) (b a i : Addr) (hi : i ≠ b) :
    (pushElem h b a)[i]? = h[i]? := by
  unfold pushElem
  cases hb : h[b]? with
  | none => rfl
  | some o =>
      cases o with
      | arr es => exact List.getElem?_set_ne (fun he => hi he.symm)
      | record fs => rfl

theorem lookup_addr_bound {m : List (JSVal × Addr)} {k : JSVal} {b n : Addr}
    (hm : ∀ p ∈ m, n ≤ p.2) (hfind : List.lookup k m = some b) : n ≤ b := by
  induction m with
  | nil => cases hfind
  | cons p m ih =>
      obtain ⟨k₀, b₀⟩ := p
      by_cases hk : k = k₀
      · simp [List.lookup, hk] at hfind
        rw [← hfind]
        exact hm (k₀, b₀) (List.mem_cons_self _ _)
      · simp only [List.lookup, beq_eq_false_iff_ne.mpr hk] at hfind
        exact ih (fun p hp => hm p (List.mem_cons_of_mem _ hp)) hfind

theorem groupByLoop_frame (sel : HSelector) (elems : List Addr) :
    ∀ (n : Nat) (h : Heap) (m : List (JSVal × Addr)),
      n ≤ h.length → (∀ p ∈ m, n ≤ p.2) →
      n ≤ (groupByLoop sel elems h m).1.length ∧
        ∀ i, i < n → (groupByLoop sel elems h m).1[i]? = h[i]? := by
  induction elems with
  | nil => intro n h m hn _; exact ⟨hn, fun i _ => rfl⟩
  | cons a rest ih =>
      intro n h m hn hm
      simp only [groupByLoop]
      cases hfind : List.lookup (applySelH h sel a) m with
      | some b =>
          have hb : n ≤ b := lookup_addr_bound hm hfind
          obtain ⟨h₁, h₂⟩ := ih n (pushElem h b a) m
            (by rw [length_pushElem]; exact hn) hm
          refine ⟨h₁, fun i hi => ?_⟩
          rw [h₂ i hi, pushElem_getElem_ne]
          exact Nat.ne_of_lt (lt_of_lt_of_le hi hb)
      | none =>
          obtain ⟨h₁, h₂⟩ := ih n (pushElem (h ++ [.arr []]) h.length a)
            (m ++ [(applySelH h sel a, h.length)])
            (by rw [length_pushElem]; simpa using le_trans hn (Nat.le_succ _))
            (by
              intro p hp
              rcases List.mem_append.mp hp with hp | hp
              · exact hm p hp
              · rw [List.mem_singleton.mp hp]
                exact hn)
          refine ⟨h₁, fun i hi => ?_⟩
          rw [h₂ i hi, pushElem_getElem_ne, List.getElem?_append,
            if_pos (lt_of_lt_of_le hi hn)]
          exact Nat.ne_of_lt (lt_of_lt_of_le hi hn)

/-! ### Example inputs -/

/-- A record whose field `t` is the string `b` (from the spec example). -/
def rb : Record := [("t", .str "b")]

/-- A record whose field `t` is the string `a` (from the spec example). -/
def ra : Record := [("t", .str "a")]

/-- The spec example input: the records with team `b`, `a`, `b` in that order. -/
def exTeams : List Record := [rb, ra, rb]

/-- Two records whose distinct keys (the number `1` and the string `"1"`)
stringify to the same property name. -/
def exCollision : List Record := [[("k", .num 1)], [("k", .str "1")]]

/-- Two records with the numeric syllable counts `2` and `10`. -/
def exNumeric : List Record :=
  [[("numSyllables", .num 2)], [("numSyllables", .num 10)]]

/-- A single record that lacks the field `k`. -/
def exMissing : List Record := [[("a", .num 1)]]

/-- Records carrying a number `n` and its precomputed parity field. -/
def exParity : List Record :=
  [[("n", .num 1), ("par", .str "odd")], [("n", .num 2), ("par", .str "even")]]

/-- The record-derived parity of the `n` field, as a key-selector function. -/
def parityOf (r : Record) : JSVal :=
  match List.lookup "n" r with
  | some (.num n) => if n % 2 = 0 then .str "even" else .str "odd"
  | _ => .undefined

/-- A heap holding an input array at address `0` whose two records live at
addresses `1` and `2`. -/
def exHeap : Heap :=
  [.arr [1, 2], .record [("k", .num 1)], .record [("k", .num 2)]]

/-! ### The claims -/

/-- C1, counterexample: `groupBy` can lose a record. The number key `1` and
the string key `"1"` are distinct `Map` keys, but both become the property
name `"1"` of the result object, so the second assignment overwrites the
first bucket and the record `{k: 1}` disappears from the output. -/
theorem groupBy_loses_record_on_string_collision :
    ¬ (flattenGroups (groupBy exCollision (.field "k"))).Perm exCollision := by
  decide

/-- C1 (amended): whenever the stringified forms of the distinct group keys
are pairwise distinct, `groupBy` partitions every input record into exactly
one output group: the multiset union of the output groups equals the input,
no record lost and none duplicated. -/
theorem groupBy_partitions_of_keyStrings_nodup (objects : List Record)
    (property : Selector)
    (h : (((groupMap objects property).map Prod.fst).map jsToString).Nodup) :
    (flattenGroups (groupBy objects property) : Multiset Record) =
      (objects : Multiset Record) := by
  rw [Multiset.coe_eq_coe]
  have hperm : (List.insertionSort jsLe
      ((groupMap objects property).map Prod.fst)).Perm
      ((groupMap objects property).map Prod.fst) :=
    List.perm_insertionSort jsLe _
  have hnd : ((List.insertionSort jsLe
      ((groupMap objects property).map Prod.fst)).map jsToString).Nodup :=
    (hperm.map jsToString).symm.nodup h
  have heq : groupBy objects property =
      (List.insertionSort jsLe ((groupMap objects property).map Prod.fst)).map
        (fun k => (jsToString k, mapGet (groupMap objects property) k)) := by
    unfold groupBy
    simpa using foldl_objSet_eq (groupMap objects property) _ [] hnd (by simp)
  rw [heq]
  unfold flattenGroups
  rw [List.map_map]
  have hsnd : (Prod.snd ∘ fun k =>
      (jsToString k, mapGet (groupMap objects property) k)) =
      fun k => mapGet (groupMap objects property) k := rfl
  rw [hsnd]
  refine ((hperm.map _).flatten).trans ?_
  rw [map_mapGet_mapFst (nodup_mapFst_groupMap objects property)]
  exact flatten_groupMap objects property

/-- C1 witness: on the spec example the key strings are distinct and the
groups use up the input exactly. -/
theorem groupBy_partitions_witness :
    (((groupMap exTeams (Selector.field "t")).map Prod.fst).map jsToString).Nodup ∧
    (flattenGroups (groupBy exTeams (Selector.field "t")) : Multiset Record) =
      (exTeams : Multiset Record) :=
  ⟨by decide, groupBy_partitions_of_keyStrings_nodup exTeams (Selector.field "t")
    (by decide)⟩

/-- C2, counterexample: with the numeric keys `2` and `10` the emitted key
order is the numeric `["2", "10"]`, not the ascending stringified order
(`"10" < "2"` lexicographically): property names that are array indices are
enumerated numerically first, regardless of the sorted insertion order. -/
theorem groupBy_numeric_keys_not_stringified_order :
    objKeys (groupBy exNumeric (.field "numSyllables")) = ["2", "10"] ∧
    ¬ List.Sorted (fun a b : String => strLe a b = true)
      (objKeys (groupBy exNumeric (.field "numSyllables"))) := by
  constructor
  · decide
  · decide

/-- C2 (amended): the keys of the returned mapping appear in ascending
order of their stringified forms provided no group key is `undefined` and
no stringified key is an array-index numeral; keys that stringify to array
indices (in particular non-negative numeric keys) are instead enumerated
first in ascending numeric order. -/
theorem groupBy_keys_sorted_of_plain_keys (objects : List Record)
    (property : Selector)
    (h : ∀ k ∈ (groupMap objects property).map Prod.fst,
      k ≠ JSVal.undefined ∧ isIdx (jsToString k) = false) :
    List.Sorted (fun a b : String => strLe a b = true)
      (objKeys (groupBy objects property)) := by
  have hks : ∀ k ∈ List.insertionSort jsLe
      ((groupMap objects property).map Prod.fst),
      k ≠ JSVal.undefined ∧ isIdx (jsToString k) = false :=
    fun k hk => h k ((List.mem_insertionSort jsLe).mp hk)
  have hsorted : List.Sorted jsLe (List.insertionSort jsLe
      ((groupMap objects property).map Prod.fst)) :=
    List.sorted_insertionSort jsLe _
  have hsortedStr : List.Pairwise (fun a b : String => strLe a b = true)
      ((List.insertionSort jsLe
        ((groupMap objects property).map Prod.fst)).map jsToString) := by
    rw [List.pairwise_map]
    refine List.Pairwise.imp_of_mem ?_ hsorted
    intro a b ha hb hab
    exact jsLe_toString (hks a ha).1 (hks b hb).1 hab
  have hsub : ((groupBy objects property).map Prod.fst).Sublist
      ((List.insertionSort jsLe
        ((groupMap objects property).map Prod.fst)).map jsToString) := by
    unfold groupBy
    simpa using mapFst_foldl_objSet_sublist (groupMap objects property) _ []
  have hnames : ∀ s ∈ (groupBy objects property).map Prod.fst,
      isIdx s = false := by
    intro s hs
    obtain ⟨k, hk, hks₂⟩ := List.mem_map.mp (hsub.subset hs)
    exact hks₂ ▸ (hks k hk).2
  show List.Sorted (fun a b : String => strLe a b = true)
    (objKeys (groupBy objects property))
  unfold objKeys
  have hidx : ((groupBy objects property).map Prod.fst).filter
      (fun s => isIdx s) = [] :=
    List.filter_eq_nil_iff.mpr (fun s hs => by simp [hnames s hs])
  have hplain : ((groupBy objects property).map Prod.fst).filter
      (fun s => !isIdx s) = (groupBy objects property).map Prod.fst :=
    List.filter_eq_self.mpr (fun s hs => by simp [hnames s hs])
  rw [hidx, hplain]
  show List.Sorted (fun a b : String => strLe a b = true)
    (List.insertionSort idxLe [] ++ (groupBy objects property).map Prod.fst)
  rw [show List.insertionSort idxLe ([] : List String) = [] from rfl,
    List.nil_append]
  exact List.Pairwise.sublist hsub hsortedStr

/-- C2 witness: on the spec example the keys `b`, `a` are neither
`undefined` nor array indices, and the emitted keys come out sorted. -/
theorem groupBy_keys_sorted_witness :
    (∀ k ∈ (groupMap exTeams (Selector.field "t")).map Prod.fst,
      k ≠ JSVal.undefined ∧ isIdx (jsToString k) = false) ∧
    List.Sorted (fun a b : String => strLe a b = true)
      (objKeys (groupBy exTeams (Selector.field "t"))) :=
  ⟨by decide, groupBy_keys_sorted_of_plain_keys exTeams (Selector.field "t")
    (by decide)⟩

/-- C3: `groupBy` is a stable partition: every output group is a sublist of
the input sequence, so any two records of a group appear in the same
relative order as in the input. -/
theorem groupBy_groups_stable (objects : List Record) (property : Selector) :
    ∀ p ∈ groupBy objects property, p.2.Sublist objects := by
  intro p hp
  unfold groupBy at hp
  obtain ⟨k, hk⟩ :=
    foldl_objSet_values (groupMap objects property) _ [] (by intro q hq; cases hq)
      p hp
  rw [hk, mapGet_groupMap]
  exact List.filter_sublist objects

/-- C3 witness: on the spec example the group `b` holds both `b` records in
input order, a sublist of the input. -/
theorem groupBy_groups_stable_witness :
    ("b", [rb, rb]) ∈ groupBy exTeams (Selector.field "t") ∧
    List.Sublist [rb, rb] exTeams :=
  ⟨by decide, groupBy_groups_stable exTeams (Selector.field "t") ("b", [rb, rb])
    (by decide)⟩

/-- C4: a function key selector that agrees, record by record, with the
lookup of a precomputed field yields exactly the same grouped result as
grouping by that field name. -/
theorem groupBy_fn_eq_field (objects : List Record) (f : Record → JSVal)
    (p : String) (h : ∀ r ∈ objects, f r = (List.lookup p r).getD .undefined) :
    groupBy objects (.fn f) = groupBy objects (.field p) :=
  groupBy_congr objects (fun r hr => h r hr)

/-- C4 witness: grouping by record-derived parity equals grouping by the
precomputed parity field. -/
theorem groupBy_fn_eq_field_witness :
    (∀ r ∈ exParity, parityOf r = (List.lookup "par" r).getD .undefined) ∧
    groupBy exParity (Selector.fn parityOf) =
      groupBy exParity (Selector.field "par") :=
  ⟨by decide, groupBy_fn_eq_field exParity parityOf "par" (by decide)⟩

/-- C5: `groupBy` does not mutate the heap it is given: every address that
existed before the call (the input array and every record in it included)
holds exactly the same object afterwards; the only writes go to bucket
arrays `groupBy` allocated itself. -/
theorem groupByH_preserves_input (h : Heap) (input : Addr) (sel : HSelector)
    (a : Addr) (ha : a < h.length) : (groupByH h input sel).1[a]? = h[a]? := by
  unfold groupByH
  exact (groupByLoop_frame sel _ h.length h [] (le_refl _)
    (by intro p hp; cases hp)).2 a ha

/-- C5 witness: on a concrete heap the input record at address `1` is
untouched by the call. -/
theorem groupByH_preserves_input_witness :
    1 < exHeap.length ∧
    (groupByH exHeap 0 (HSelector.field "k")).1[1]? = exHeap[1]? :=
  ⟨by decide, groupByH_preserves_input exHeap 0 (HSelector.field "k") 1 (by decide)⟩

/-- C6: when some record's selected key is `undefined` (a missing field
included), `groupBy` still returns normally and the result owns a group
under the property name `"undefined"` holding exactly those records. -/
theorem groupBy_undefined_still_grouped (objects : List Record)
    (property : Selector)
    (h : ∃ r ∈ objects, applySel property r = JSVal.undefined) :
    ("undefined",
      objects.filter (fun r => decide (applySel property r = JSVal.undefined))) ∈
      groupBy objects property := by
  obtain ⟨r, hr, hkey⟩ := h
  have hmem : JSVal.undefined ∈ (groupMap objects property).map Prod.fst :=
    hkey ▸ key_mem_mapFst_groupMap objects property hr
  have hnd : ((groupMap objects property).map Prod.fst).Nodup :=
    nodup_mapFst_groupMap objects property
  have hndks := (List.perm_insertionSort jsLe
    ((groupMap objects property).map Prod.fst)).symm.nodup hnd
  have hmemks : JSVal.undefined ∈ List.insertionSort jsLe
      ((groupMap objects property).map Prod.fst) :=
    (List.mem_insertionSort jsLe).mpr hmem
  obtain ⟨l₀, hl₀⟩ := sorted_mem_eq_append_last
    (List.sorted_insertionSort jsLe ((groupMap objects property).map Prod.fst))
    hndks hmemks (fun b hb => jsLe_undef_right b hb)
  unfold groupBy
  rw [hl₀, List.foldl_append]
  simp only [List.foldl_cons, List.foldl_nil]
  rw [mapGet_groupMap]
  exact self_mem_objSet _ _ _

/-- C6 witness: a record without the field `k` lands in the group
`"undefined"`. -/
theorem groupBy_undefined_still_grouped_witness :
    (∃ r ∈ exMissing, applySel (Selector.field "k") r = JSVal.undefined) ∧
    ("undefined", exMissing.filter
      (fun r => decide (applySel (Selector.field "k") r = JSVal.undefined))) ∈
      groupBy exMissing (Selector.field "k") :=
  ⟨by decide, groupBy_undefined_still_grouped exMissing (Selector.field "k")
    (by decide)⟩

/-- C7: `groupBy` of the empty sequence is the empty mapping, for every key
selector. -/
theorem groupBy_nil (property : Selector) : groupBy [] property = [] := rfl

/-- C8: when the outbound request fails, `datamuseRequest` only appends the
error to the diagnostic console; the page-updating callback never runs and
the page is left exactly as it was. -/
theorem datamuseRequest_error_logs_only (e : String)
    (callback : List Record → Page → Page) (st : BrowserState) :
    (datamuseRequest (.error e) callback st).page = st.page ∧
    (datamuseRequest (.error e) callback st).console = st.console ++ [e] :=
  ⟨rfl, rfl⟩

/-- C9: on an empty API response both handler callbacks write the explicit
`"(no results)"` message into the output area and append no result items. -/
theorem handlers_render_no_results_on_empty (page : Page) :
    (rhymeCallback [] page).wordOutput.value = "(no results)" ∧
    (rhymeCallback [] page).wordOutput.children = page.wordOutput.children ∧
    (synonymCallback [] page).wordOutput.value = "(no results)" ∧
    (synonymCallback [] page).wordOutput.children = page.wordOutput.children :=
  ⟨rfl, rfl, rfl, rfl⟩

/-- C10: `addToSavedWords` appends exactly one entry to the in-memory word
list on every call, deduplicating nothing: the new list is the old list
with the word appended, so its length grows by one and no existing entry is
removed or reordered. -/
theorem addToSavedWords_appends (word : String) (st : SavedWordsState) :
    (addToSavedWords word st).wordList = st.wordList ++ [word] ∧
    (addToSavedWords word st).wordList.length = st.wordList.length + 1 :=
  ⟨rfl, by simp [addToSavedWords]⟩

end PS5
